import Mathlib

/-!
# Verification of the rng_tui BitBabbler driver core

Shallow embedding of the BitBabbler USB/FTDI driver of the rng_tui
repository (files `lib/rng_devices/bitbabbler_rng/ftdi.py`,
`lib/rng_devices/bitbabbler_rng/bitbabbler.py`,
`rng_devices/bitbabbler_rng/core.py`, `lib/rng_devices/pseudo_rng/core.py`),
together with theorems settling the frozen specification claims.

Conventions of the embedding:
* Python `bytes` values become `List Nat` (each entry a byte value).
* The USB device is modelled as an oracle: either an infinite byte stream
  `Nat → Nat` with an explicit read position, or, for `read_data`, an
  explicit list of raw bulk-transfer buffers (one per `_read_raw` call).
* Python exceptions become `Except String`/`Option` results.
* Unbounded `while` loops become fuel-indexed recursion returning `none`
  when the fuel is exhausted; theorems show sufficient fuel yields `some`.
-/

namespace RngTui

/-! ## FTDI transport framing (`ftdi.py`)

`FTDIDevice._consume_packets_strip_status` walks the raw buffer in
`wMaxPacketSize`-sized chunks, drops the two FTDI status bytes that head
every chunk, and stops at a trailing chunk shorter than 2 bytes. -/

/-- Embedding of `FTDIDevice._consume_packets_strip_status` (ftdi.py:324-342).
`plen` is `self.wMaxPacketSize`.  The Python loop breaks on an empty chunk or
a chunk shorter than two bytes; both breaks return the payload accumulated so
far, which is the `[]` of the recursion here. -/
def stripPackets (plen : Nat) : List Nat → List Nat
  | [] => []
  | a :: rest =>
    if ((a :: rest).take plen).length < 2 then []
    else ((a :: rest).take plen).drop 2 ++ stripPackets plen ((a :: rest).drop plen)
termination_by data => data.length
decreasing_by
  rename_i h
  simp only [List.length_take, List.length_drop, List.length_cons, Nat.not_lt] at *
  omega

/-- One pass of the `while len(out) < nbytes` loop of `FTDIDevice.read_data`
(ftdi.py:344-362).  `bufs` is the sequence of raw buffers returned by the
successive `_read_raw` calls; the result is the bytes returned to the caller,
the new `_rbuf` read-ahead queue, and the raw buffers not consumed.  When the
oracle runs out of buffers before the request is satisfied (in the device this
is the blocking/timeout case) the result is `none`. -/
def readDataLoop (plen n : Nat) (out : List Nat) :
    List (List Nat) → Option (List Nat × List Nat × List (List Nat))
  | [] => if n ≤ out.length then some (out, [], []) else none
  | raw :: rest =>
    if n ≤ out.length then some (out, [], raw :: rest)
    else
      let payload := stripPackets plen raw
      if payload.isEmpty then readDataLoop plen n out rest
      else
        let needed := n - out.length
        if payload.length ≤ needed then readDataLoop plen n (out ++ payload) rest
        else some (out ++ payload.take needed, payload.drop needed, rest)

/-- Embedding of `FTDIDevice.read_data` (ftdi.py:344-362).  The buffered
`self._rbuf` content is drained first (`take = min(nbytes, len(self._rbuf))`);
the loop then reads raw buffers, strips per-packet status bytes and stores any
surplus payload back into the read-ahead queue. -/
def read_data (plen n : Nat) (rbuf : List Nat) (bufs : List (List Nat)) :
    Option (List Nat × List Nat × List (List Nat)) :=
  if n ≤ rbuf.length then some (rbuf.take n, rbuf.drop n, bufs)
  else readDataLoop plen n rbuf bufs


/-! ## XOR folding (`bitbabbler.py`, `fold_bytes`)

The Python function works in place on a `bytearray` with a live-length
counter: each pass XORs `b[half + i]` into `b[i]` for `i < half` (with
`half = length // 2`), halves `length`, and at the end returns `b[:length]`.
The writes hit only indices `< half` while the reads at `half + i` hit
indices `≥ half`, so the in-place update has no read/write aliasing and is
modelled by a pure element-wise map. -/

/-- One pass of the fold loop of `fold_bytes` (bitbabbler.py:55-60) on the
full buffer `b` whose first `len` entries are live. -/
def foldPass (b : List Nat) (len : Nat) : List Nat :=
  (List.range b.length).map fun i =>
    if i < len / 2 then b.getD i 0 ^^^ b.getD (len / 2 + i) 0 else b.getD i 0

/-- The `for _ in range(folds)` loop of `fold_bytes`: threads the buffer and
the live length. -/
def foldLoop : Nat → List Nat → Nat → List Nat × Nat
  | 0, b, len => (b, len)
  | k + 1, b, len => foldLoop k (foldPass b len) (len / 2)

/-- Embedding of `fold_bytes` (bitbabbler.py:42-61).  `folds <= 0` returns an
unmodified copy; a length with any of the low `folds` bits set raises
`ValueError`; otherwise the fold loop runs and the result is truncated to the
final live length. -/
def fold_bytes (data : List Nat) (folds : Nat) : Except String (List Nat) :=
  if folds = 0 then .ok data
  else if data.length &&& ((1 <<< folds) - 1) != 0 then
    .error "input length is not divisible by 2**folds"
  else
    let r := foldLoop folds data data.length
    .ok (r.1.take r.2)

/-- Reference fold step, following the spec wording: XOR `data[half:half+half]`
into `data[0:half]` and truncate to `half`. -/
def foldRefOnce (b : List Nat) : List Nat :=
  List.zipWith (fun x y => x ^^^ y) (b.take (b.length / 2))
    ((b.drop (b.length / 2)).take (b.length / 2))

/-- Reference algorithm of the spec: `folds` iterations of `foldRefOnce`. -/
def foldRef (folds : Nat) (b : List Nat) : List Nat := foldRefOnce^[folds] b

/-! ## Entropy reads (`bitbabbler.py`, `read_entropy` / `read_entropy_folded`)

The device is modelled as an infinite byte stream `s : Nat → Nat` together
with a current read position; `read_entropy` returns the next `nbytes`
stream bytes.  The MPSSE read command written before the bulk read carries no
information into the result and is not modelled here (its clock-divisor
bytes are modelled separately below). -/

/-- Embedding of `BitBabbler.read_entropy` (bitbabbler.py:131-143): validates
`1 ≤ nbytes ≤ 65536`, then reads `nbytes` bytes from the stream. -/
def read_entropy (s : Nat → Nat) (pos nbytes : Nat) :
    Except String (List Nat × Nat) :=
  if nbytes < 1 ∨ nbytes > 65536 then .error "nbytes must be 1..65536"
  else .ok ((List.range nbytes).map fun i => s (pos + i), pos + nbytes)

/-- The `while remain > 0` loop of the `folds > 0` branch of
`read_entropy_folded` (bitbabbler.py:161-167), fuel-indexed.  Returns the
accumulated folded output, the raw chunks read (in order), and the final
stream position; `none` when the fuel runs out before `remain` is covered. -/
def readFoldedGo (s : Nat → Nat) (folds : Nat) :
    Nat → Nat → Nat → Option (List Nat × List (List Nat) × Nat)
  | 0, pos, remain => if remain = 0 then some ([], [], pos) else none
  | fuel + 1, pos, remain =>
    if remain = 0 then some ([], [], pos)
    else
      let m := max 1 (min remain (65536 >>> folds))
      match read_entropy s pos (m <<< folds) with
      | .error _ => none
      | .ok (raw, pos2) =>
        match fold_bytes raw folds with
        | .error _ => none
        | .ok folded =>
          match readFoldedGo s folds fuel pos2 (remain - folded.length) with
          | none => none
          | some (out, chunks, pos3) => some (folded ++ out, raw :: chunks, pos3)

/-- The `while remain > 0` loop of the `folds <= 0` branch of
`read_entropy_folded` (bitbabbler.py:155-158), fuel-indexed. -/
def readPlainGo (s : Nat → Nat) :
    Nat → Nat → Nat → Option (List Nat × List (List Nat) × Nat)
  | 0, pos, remain => if remain = 0 then some ([], [], pos) else none
  | fuel + 1, pos, remain =>
    if remain = 0 then some ([], [], pos)
    else
      let chunk := max 1 (min remain 65536)
      match read_entropy s pos chunk with
      | .error _ => none
      | .ok (raw, pos2) =>
        match readPlainGo s fuel pos2 (remain - chunk) with
        | none => none
        | some (out, chunks, pos3) => some (raw ++ out, raw :: chunks, pos3)

/-- Embedding of `BitBabbler.read_entropy_folded` (bitbabbler.py:145-168). -/
def read_entropy_folded (s : Nat → Nat) (fuel out_len folds : Nat) :
    Option (List Nat × List (List Nat) × Nat) :=
  if folds = 0 then readPlainGo s fuel 0 out_len
  else readFoldedGo s folds fuel 0 out_len

/-- Raw transfer sizes dictated by the claim formula: each iteration reads
`min(remaining, 65536 >> folds) << folds` bytes until `remaining` is zero. -/
def rawSizes (folds : Nat) (remain : Nat) : List Nat :=
  if h : remain = 0 ∨ 65536 >>> folds = 0 then []
  else (min remain (65536 >>> folds) <<< folds)
    :: rawSizes folds (remain - min remain (65536 >>> folds))
termination_by remain
decreasing_by
  push_neg at h
  exact Nat.sub_lt (Nat.pos_of_ne_zero h.1)
    (le_min (Nat.pos_of_ne_zero h.1) (Nat.pos_of_ne_zero h.2))


/-- Successive stream segments of the given sizes starting at `pos`. -/
def chunkStream (s : Nat → Nat) : Nat → List Nat → List (List Nat)
  | _, [] => []
  | pos, sz :: sizes => ((List.range sz).map fun i => s (pos + i))
      :: chunkStream s (pos + sz) sizes


/-- Concrete test stream for the chunked-fold comparison: a single byte 1 at
offset 32768, all other bytes 0. -/
def deltaStream : Nat → Nat := fun i => if i = 32768 then 1 else 0

/-! ## MPSSE sync handshake (`ftdi.py`, `init_mpsse` / `_check_sync`)

`_check_sync(cmd)` writes the bad-command byte `cmd` followed by the MPSSE
send-immediate byte, then polls up to 10 raw reads for the echo sequence
`0xFA, cmd`.  `init_mpsse` runs up to 2 bring-up attempts; an attempt ends in
success when both checks (commands 0xAA, then 0xAB) pass.  The read results
are an oracle `env attempt cmd poll`; the control-transfer steps of the
bring-up (reset, purge, special chars, latency, flow control, bitmode,
modem-status probe) do not influence the return value and are not modelled. -/

def MPSSE_SEND_IMMEDIATE : Nat := 0x87

/-- The inner scan `for i in range(len(data) - 1)` of `_check_sync`
(ftdi.py:408-410): true iff the consecutive bytes `0xFA, cmd` occur. -/
def scanPair (cmd : Nat) : List Nat → Bool
  | a :: b :: rest => (a == 0xFA && b == cmd) || scanPair cmd (b :: rest)
  | _ => false

/-- Bytes written by `_check_sync` (ftdi.py:400): the bad-command byte
followed by the send-immediate byte. -/
def check_sync_write (cmd : Nat) : List Nat := [cmd, MPSSE_SEND_IMMEDIATE]

/-- Embedding of `FTDIDevice._check_sync` (ftdi.py:399-412): poll up to 10
raw reads (a read that raises is `none` and is skipped) looking for the
sequence `0xFA, cmd`. -/
def check_sync (cmd : Nat) (reads : Nat → Option (List Nat)) : Bool :=
  (List.range 10).any fun i =>
    match reads i with
    | none => false
    | some d => scanPair cmd d

/-- Embedding of `FTDIDevice.init_mpsse` (ftdi.py:377-397): up to 2 bring-up
attempts; success iff some attempt passes both sync checks (`and`
short-circuits, so the 0xAB check runs only after the 0xAA check passes). -/
def init_mpsse (env : Nat → Nat → Nat → Option (List Nat)) : Bool :=
  (List.range 2).any fun a =>
    check_sync 0xAA (env a 0xAA) && check_sync 0xAB (env a 0xAB)

/-- Sync-check write buffers issued during one bring-up attempt: the second
check runs only when the first one passed. -/
def attemptSyncWrites (a : Nat) (env : Nat → Nat → Nat → Option (List Nat)) :
    List (List Nat) :=
  if check_sync 0xAA (env a 0xAA) then
    [check_sync_write 0xAA, check_sync_write 0xAB]
  else [check_sync_write 0xAA]

/-- All sync-check write buffers issued by `init_mpsse`: the second attempt
runs only when the first attempt failed. -/
def initSyncWrites (env : Nat → Nat → Nat → Option (List Nat)) :
    List (List Nat) :=
  if check_sync 0xAA (env 0 0xAA) && check_sync 0xAB (env 0 0xAB) then
    attemptSyncWrites 0 env
  else attemptSyncWrites 0 env ++ attemptSyncWrites 1 env

/-- Embedding of `BitBabbler.init` (bitbabbler.py:101-129): `init_mpsse`
followed by the device-specific configuration write and purge, which always
succeed, so the returned flag is that of `init_mpsse`. -/
def bb_init (env : Nat → Nat → Nat → Option (List Nat)) : Bool := init_mpsse env

/-- Embedding of `BitBabbler.open` (bitbabbler.py:82-99), parameterized by
whether discovery found a device and by the sync-read oracle. -/
def bb_open (found : Bool) (env : Nat → Nat → Nat → Option (List Nat)) :
    Except String Unit :=
  if !found then
    .error "BitBabbler device not found (tried VID:PID 0403:7840 and string scan)"
  else if bb_init env then .ok ()
  else .error "Failed to initialize BitBabbler (MPSSE sync)"

/-- Oracle under which every poll read echoes the expected pair, so the
handshake succeeds immediately. -/
def allSyncEnv : Nat → Nat → Nat → Option (List Nat) :=
  fun _ cmd _ => some [0xFA, cmd]

/-! ## Bitrate quantization, clock divisor and latency (`bitbabbler.py`) -/

/-- Embedding of `real_bitrate` (bitbabbler.py:29-39).  Python `//` is floor
division, `Int.fdiv`. -/
def real_bitrate (bitrate : Int) : Int :=
  if bitrate ≥ 30000000 then 30000000
  else if bitrate ≤ 458 then 458
  else Int.fdiv 30000000 (Int.fdiv 30000000 bitrate)

/-- The bitrate stored by `BitBabbler.__init__` (bitbabbler.py:73):
`real_bitrate(bitrate or 2_500_000)` — both `None` and `0` are falsy in
Python, so both select the default. -/
def stored_bitrate (bitrate : Option Int) : Int :=
  real_bitrate (match bitrate with
    | none => 2500000
    | some b => if b = 0 then 2500000 else b)

/-- Clock divisor computed in `BitBabbler.init` (bitbabbler.py:106):
`30_000_000 // self.bitrate - 1`. -/
def clk_div (bitrate : Int) : Int := Int.fdiv 30000000 bitrate - 1

/-- The two little-endian divisor bytes placed in the MPSSE
`SET_CLK_DIVISOR` command (bitbabbler.py:118-119). -/
def clk_div_bytes (d : Nat) : Nat × Nat := (d &&& 0xFF, (d >>> 8) &&& 0xFF)

/-- Default latency timer of `BitBabbler.__init__` (bitbabbler.py:77-80):
`max(1, min(255, int(packet_ms) + 2))` with
`packet_ms = wMaxPacketSize * 8000 / bitrate` (float).  For the magnitudes
involved (numerator ≤ 2^25·8000, denominator ≤ 3·10^7) the double-precision
quotient never rounds across an integer, so `int(packet_ms)` is exactly the
integer floor modelled here by `Nat` division. -/
def default_latency (wMaxPacketSize bitrate : Nat) : Nat :=
  max 1 (min 255 (wMaxPacketSize * 8000 / bitrate + 2))

/-- The formula stated by the spec and by the comment above the code:
`ceil(wMaxPacketSize * 8000 / bitrate) + 2`, clamped to `[1, 255]`. -/
def latency_claim_formula (wMaxPacketSize bitrate : Nat) : Nat :=
  max 1 (min 255 ((wMaxPacketSize * 8000 + bitrate - 1) / bitrate + 2))

/-! ## Module-level device cache (`rng_devices/bitbabbler_rng/core.py`)

The module state is the cached device handle plus counters indexing the
oracles: how many `BitBabbler.open()` calls and hardware reads have happened
so far.  `_bb_available` is modelled as true (the import succeeded); the
returned bytes are irrelevant to the cache discipline and are not carried. -/

/-- Module-level mutable state of `core.py`. -/
structure CoreState where
  cached : Option Nat
  opens : Nat
  reads : Nat
deriving DecidableEq

/-- Environment oracle for `core.py`: result of the k-th `BitBabbler.open()`
(`none` when discovery or bring-up raised) and whether the k-th hardware
read succeeds. -/
structure CoreEnv where
  openResult : Nat → Option Nat
  readOk : Nat → Bool

/-- Embedding of `_get_device` (core.py:63-77): return the cached handle, or
open a new device, caching it on success and returning `None` on failure. -/
def get_device (env : CoreEnv) (s : CoreState) : Option Nat × CoreState :=
  match s.cached with
  | some d => (some d, s)
  | none =>
    match env.openResult s.opens with
    | some d => (some d, { s with cached := some d, opens := s.opens + 1 })
    | none => (none, { s with opens := s.opens + 1 })

/-- Error taxonomy of `get_bytes`: `ValueError` on bad arguments,
`RuntimeError` on missing device or failed read. -/
inductive CoreErr
  | invalidArg
  | deviceNotFound
  | readFailed
deriving DecidableEq

/-- Embedding of `get_bytes` (core.py:80-115): validate arguments, fetch the
(cached) device and read; on a read exception the module cache is reset to
`None` before the `RuntimeError` is raised. -/
def core_get_bytes (env : CoreEnv) (s : CoreState) (n folds : Int) :
    Except CoreErr Unit × CoreState :=
  if n ≤ 0 then (.error .invalidArg, s)
  else if folds < 0 ∨ 4 < folds then (.error .invalidArg, s)
  else
    match get_device env s with
    | (none, s2) => (.error .deviceNotFound, s2)
    | (some _, s2) =>
      if env.readOk s2.reads then (.ok (), { s2 with reads := s2.reads + 1 })
      else (.error .readFailed, { s2 with cached := none, reads := s2.reads + 1 })

/-- Embedding of `close` (core.py:211-226): best-effort close of the cached
handle (errors swallowed), then the cache is cleared; when the cache is
already empty the call is a no-op, so the state effect is simply clearing
the cache. -/
def core_close (s : CoreState) : CoreState := { s with cached := none }

/-! ## `random_int` (`rng_devices/bitbabbler_rng/core.py` and
`lib/rng_devices/pseudo_rng/core.py`) -/

/-- `int.from_bytes(data, "big")` (core.py:167-169). -/
def bytesToInt (l : List Nat) : Nat := l.foldl (fun a b => a * 256 + b) 0

/-- Exact `ceil(log2 n)` with structural fuel so it kernel-evaluates; models
`math.ceil(math.log2(range_size))` (core.py:198), which is this exact
ceiling for every integer magnitude a double represents faithfully. -/
def ceilLog2Aux : Nat → Nat → Nat
  | 0, _ => 0
  | fuel + 1, n => if n ≤ 1 then 0 else ceilLog2Aux fuel ((n + 1) / 2) + 1

/-- `ceil(log2 n)` (0 for `n ≤ 1`). -/
def ceilLog2 (n : Nat) : Nat := ceilLog2Aux n n

/-- The rejection loop of `random_int` (core.py:202-208): draw `nB` bytes
from the stream, interpret big-endian, mask to the low `bits` bits, accept
the first value below `range`.  Fuel-bounded. -/
def rejectLoop (s : Nat → Nat) (bits nB range : Nat) :
    Nat → Nat → Option Nat
  | 0, _ => none
  | fuel + 1, pos =>
    let val := bytesToInt ((List.range nB).map fun i => s (pos + i))
      &&& ((1 <<< bits) - 1)
    if val < range then some val
    else rejectLoop s bits nB range fuel (pos + nB)

/-- Embedding of `random_int` (rng_devices/bitbabbler_rng/core.py:172-208).
`get_bytes` is the byte stream `s`; the `folds` argument only selects the
underlying read path and does not affect the control flow modelled here.
`some (.ok v)` is a normal return, `some (.error e)` a `ValueError`, and
`none` means the rejection loop exceeded its fuel. -/
def bb_random_int (s : Nat → Nat) (fuel : Nat) (min_val : Int)
    (max_val : Option Int) : Option (Except String Int) :=
  match max_val with
  | none => some (.ok (bytesToInt ((List.range 4).map s) : Nat))
  | some mx =>
    if mx ≤ min_val then
      some (.error "min_val must be less than max_val")
    else
      let range := (mx - min_val).toNat
      let bits := max 1 (ceilLog2 range)
      let nB := (bits + 7) / 8
      match rejectLoop s bits nB range fuel 0 with
      | none => none
      | some v => some (.ok (min_val + v))

/-- Oracle for the Python `secrets` module used by the pseudo backend:
`secrets.randbelow` (contract: result `< n` for `n > 0`) and
`secrets.randbits(32)`. -/
structure SecretsOracle where
  randbelow : Nat → Nat
  randbits32 : Nat

/-- Embedding of `random_int` (lib/rng_devices/pseudo_rng/core.py:96-119). -/
def pseudo_random_int (o : SecretsOracle) (min_val : Int)
    (max_val : Option Int) : Except String Int :=
  match max_val with
  | none =>
    if min_val < 0 then
      .error "min_val must be non-negative when max_val is None"
    else if 0 < min_val then .ok (o.randbelow min_val.toNat : Nat)
    else .ok (o.randbits32 : Nat)
  | some mx =>
    if mx ≤ min_val then
      .error "min_val must be less than max_val"
    else .ok (min_val + (o.randbelow (mx - min_val).toNat : Nat))

/-! ## Lemmas and claim theorems -/

lemma stripPackets_short {plen : Nat} {data : List Nat} (h : data.length < 2) :
    stripPackets plen data = [] := by
  match data with
  | [] => simp [stripPackets]
  | a :: rest =>
    rw [stripPackets]
    have hlt : ((a :: rest).take plen).length < 2 := by
      simp only [List.length_take, List.length_cons] at *
      omega
    rw [if_pos hlt]

lemma stripPackets_cons_packet {plen : Nat} (c rest : List Nat)
    (hc : c.length = plen) (hp : 2 ≤ plen) :
    stripPackets plen (c ++ rest) = c.drop 2 ++ stripPackets plen rest := by
  match c, hc with
  | a :: c', hc =>
    rw [show (a :: c') ++ rest = a :: (c' ++ rest) by rfl, stripPackets]
    have htake : (a :: (c' ++ rest)).take plen = a :: c' := by
      rw [show a :: (c' ++ rest) = (a :: c') ++ rest by rfl,
        List.take_append_eq_append_take, hc, Nat.sub_self, List.take_zero,
        List.append_nil, List.take_of_length_le (le_of_eq hc)]
    have hdrop : (a :: (c' ++ rest)).drop plen = rest := by
      rw [show a :: (c' ++ rest) = (a :: c') ++ rest by rfl,
        List.drop_append_eq_append_drop, hc, Nat.sub_self, List.drop_zero,
        ← hc, List.drop_length, List.nil_append]
    rw [htake, hdrop]
    have hge : ¬ (a :: c').length < 2 := by
      simp only [List.length_cons] at *
      omega
    simp only [hge, if_false]
  | [], hc =>
    simp only [List.length_nil] at hc
    omega

/-- Status stripping on a well-formed bulk buffer: a sequence of whole
`plen`-sized packets followed by a runt shorter than 2 bytes yields exactly
the bytes after offset 2 of each packet, concatenated in order. -/
lemma stripPackets_wellformed {plen : Nat} (hp : 2 ≤ plen) :
    ∀ (pk : List (List Nat)) (runt : List Nat),
      (∀ c ∈ pk, c.length = plen) → runt.length < 2 →
      stripPackets plen (pk.flatten ++ runt) = pk.flatMap (List.drop 2)
  | [], runt, _, hr => by
    simpa using @stripPackets_short plen _ hr
  | c :: pk, runt, hc, hr => by
    have h1 : c.length = plen := hc c (by simp)
    have h2 : ∀ d ∈ pk, d.length = plen := fun d hd => hc d (by simp [hd])
    simp only [List.flatten_cons, List.append_assoc, List.flatMap_cons]
    rw [stripPackets_cons_packet c _ h1 hp,
      stripPackets_wellformed hp pk runt h2 hr]

/-- Main loop invariant for `read_data`: with enough payload available in the
pending raw buffers, the loop returns the first `n` bytes of the payload
stream and retains every remaining payload byte (read-ahead queue plus
unconsumed buffers). -/
lemma readDataLoop_spec (plen n : Nat) :
    ∀ (bufs : List (List Nat)) (out : List Nat),
      out.length ≤ n →
      n ≤ out.length + (bufs.flatMap (stripPackets plen)).length →
      ∃ res rbuf2 rest,
        readDataLoop plen n out bufs = some (res, rbuf2, rest) ∧
        res = (out ++ bufs.flatMap (stripPackets plen)).take n ∧
        res ++ rbuf2 ++ rest.flatMap (stripPackets plen)
          = out ++ bufs.flatMap (stripPackets plen)
  | [], out, hle, hav => by
    have hlen : out.length = n := by simpa using le_antisymm hle (by simpa using hav)
    refine ⟨out, [], [], ?_, ?_, by simp⟩
    · simp [readDataLoop, hlen.ge]
    · simp [← hlen, List.take_append_eq_append_take]
  | raw :: bufs, out, hle, hav => by
    by_cases hfull : n ≤ out.length
    · have hlen : out.length = n := le_antisymm hle hfull
      refine ⟨out, [], raw :: bufs, ?_, ?_, by simp⟩
      · simp [readDataLoop, hfull]
      · simp [← hlen, List.take_append_eq_append_take]
    · simp only [readDataLoop, if_neg hfull]
      by_cases hemp : (stripPackets plen raw).isEmpty
      · have hnil : stripPackets plen raw = [] := by simpa using hemp
        have hav' : n ≤ out.length + ((bufs.flatMap (stripPackets plen)).length) := by
          simpa [hnil] using hav
        obtain ⟨res, rbuf2, rest, h1, h2, h3⟩ :=
          readDataLoop_spec plen n bufs out hle hav'
        exact ⟨res, rbuf2, rest, by simpa [hemp] using h1, by simpa [hnil] using h2,
          by simpa [hnil] using h3⟩
      · simp only [hemp, if_false, Bool.false_eq_true]
        by_cases hsmall : (stripPackets plen raw).length ≤ n - out.length
        · have hle' : (out ++ stripPackets plen raw).length ≤ n := by
            simp only [List.length_append]; omega
          have hav' : n ≤ (out ++ stripPackets plen raw).length +
              (bufs.flatMap (stripPackets plen)).length := by
            simp only [List.length_append]
            simpa [Nat.add_assoc] using hav
          obtain ⟨res, rbuf2, rest, h1, h2, h3⟩ :=
            readDataLoop_spec plen n bufs (out ++ stripPackets plen raw) hle' hav'
          refine ⟨res, rbuf2, rest, by simpa [hsmall] using h1, ?_, ?_⟩
          · simpa [List.append_assoc] using h2
          · simpa [List.append_assoc] using h3
        · simp only [if_neg hsmall]
          refine ⟨out ++ (stripPackets plen raw).take (n - out.length),
            (stripPackets plen raw).drop (n - out.length), bufs, rfl, ?_, ?_⟩
          · have h0 : n - out.length - (stripPackets plen raw).length = 0 := by
              have := lt_of_not_le hsmall
              omega
            rw [List.flatMap_cons, ← List.append_assoc,
              List.take_append_eq_append_take,
              List.take_append_eq_append_take,
              List.take_of_length_le (le_of_not_le hfull)]
            simp only [List.length_append, List.append_assoc]
            rw [show n - (out.length + (stripPackets plen raw).length) = 0 by
              have := lt_of_not_le hsmall
              omega]
            simp
          · simp [List.append_assoc, List.flatMap_cons]

/-- Payload of a list of well-formed raw bulk buffers, one entry per
`_read_raw` result: each buffer is whole packets (`pk`) plus a runt. -/
lemma flatMap_strip_zipWith {plen : Nat} (hp : 2 ≤ plen) :
    ∀ (pks : List (List (List Nat))) (runts : List (List Nat)),
      pks.length = runts.length →
      (∀ pk ∈ pks, ∀ c ∈ pk, c.length = plen) →
      (∀ r ∈ runts, r.length < 2) →
      (List.zipWith (fun pk r => pk.flatten ++ r) pks runts).flatMap (stripPackets plen)
        = pks.flatMap (fun pk => pk.flatMap (List.drop 2))
  | [], [], _, _, _ => rfl
  | [], r :: runts, h, _, _ => by simp at h
  | pk :: pks, [], h, _, _ => by simp at h
  | pk :: pks, r :: runts, h, hpk, hr => by
    simp only [List.zipWith_cons_cons, List.flatMap_cons]
    rw [stripPackets_wellformed hp pk r (hpk pk (by simp)) (hr r (by simp)),
      flatMap_strip_zipWith hp pks runts (by simpa using h)
        (fun q hq => hpk q (by simp [hq])) (fun q hq => hr q (by simp [hq]))]

/-- C1: for every raw bulk-IN byte sequence partitioned into
`maxPacketSize`-sized chunks each led by two status bytes, and every request
`n ≥ 1` that the available payload can satisfy, `read_data` returns exactly
the first `n` payload bytes (the bytes after offset 2 of each chunk,
concatenated in order), regardless of how the raw reads are chunked into
buffers; a trailing partial chunk shorter than 2 bytes contributes nothing,
and all payload bytes beyond `n` are retained for the next call (read-ahead
queue plus unconsumed buffers). -/
theorem read_data_returns_payload_prefix
    (plen n : Nat) (rbuf : List Nat) (pks : List (List (List Nat)))
    (runts : List (List Nat))
    (hp : 2 ≤ plen)
    (hpk : ∀ pk ∈ pks, ∀ c ∈ pk, c.length = plen)
    (hrunt : ∀ r ∈ runts, r.length < 2)
    (hlen : pks.length = runts.length)
    (hn : 1 ≤ n)
    (hav : n ≤ rbuf.length + (pks.flatMap (fun pk => pk.flatMap (List.drop 2))).length) :
    ∃ out rbuf2 rest,
      read_data plen n rbuf (List.zipWith (fun pk r => pk.flatten ++ r) pks runts)
        = some (out, rbuf2, rest) ∧
      out = (rbuf ++ pks.flatMap (fun pk => pk.flatMap (List.drop 2))).take n ∧
      rbuf2 ++ rest.flatMap (stripPackets plen)
        = (rbuf ++ pks.flatMap (fun pk => pk.flatMap (List.drop 2))).drop n := by
  have hkey : (List.zipWith (fun pk r => pk.flatten ++ r) pks runts).flatMap
      (stripPackets plen) = pks.flatMap (fun pk => pk.flatMap (List.drop 2)) :=
    flatMap_strip_zipWith hp pks runts hlen hpk hrunt
  set payload := pks.flatMap (fun pk => pk.flatMap (List.drop 2)) with hpayload
  unfold read_data
  by_cases hbuf : n ≤ rbuf.length
  · refine ⟨rbuf.take n, rbuf.drop n,
      List.zipWith (fun pk r => pk.flatten ++ r) pks runts, by rw [if_pos hbuf], ?_, ?_⟩
    · rw [List.take_append_eq_append_take, Nat.sub_eq_zero_of_le hbuf,
        List.take_zero, List.append_nil]
    · rw [hkey, List.drop_append_eq_append_drop, Nat.sub_eq_zero_of_le hbuf,
        List.drop_zero]
  · rw [if_neg hbuf]
    obtain ⟨res, rbuf2, rest, h1, h2, h3⟩ :=
      readDataLoop_spec plen n (List.zipWith (fun pk r => pk.flatten ++ r) pks runts)
        rbuf (le_of_not_le hbuf) (by rw [hkey]; omega)
    rw [hkey] at h2 h3
    refine ⟨res, rbuf2, rest, h1, h2, ?_⟩
    have hreslen : res.length = n := by
      rw [h2, List.length_take]
      simp only [List.length_append]
      omega
    have h4 := congrArg (List.drop n) h3
    rw [List.append_assoc, List.drop_append_eq_append_drop, hreslen, Nat.sub_self,
      List.drop_zero] at h4
    rw [show List.drop n res = [] from hreslen ▸ List.drop_length res] at h4
    rwa [List.nil_append] at h4

/-- Witness for C1 at a concrete instance: `plen = 4`, one raw buffer holding
two packets `[9,9,1,2]` and `[9,9,3,4]` plus runt `[1]`, read-ahead `[7]`,
request `n = 3`. -/
theorem read_data_returns_payload_prefix_witness :
    (2 ≤ 4 ∧ (∀ pk ∈ [[[9, 9, 1, 2], [9, 9, 3, 4]]], ∀ c ∈ pk, c.length = 4) ∧
      (∀ r ∈ [[1]], r.length < 2) ∧ 1 ≤ 3) ∧
    ∃ out rbuf2 rest,
      read_data 4 3 [7]
        (List.zipWith (fun pk r => pk.flatten ++ r) [[[9, 9, 1, 2], [9, 9, 3, 4]]] [[1]])
        = some (out, rbuf2, rest) ∧
      out = ([7] ++ [[[9, 9, 1, 2], [9, 9, 3, 4]]].flatMap
        (fun pk => pk.flatMap (List.drop 2))).take 3 ∧
      rbuf2 ++ rest.flatMap (stripPackets 4)
        = ([7] ++ [[[9, 9, 1, 2], [9, 9, 3, 4]]].flatMap
          (fun pk => pk.flatMap (List.drop 2))).drop 3 :=
  ⟨⟨by decide, by decide, by decide, by decide⟩,
    read_data_returns_payload_prefix 4 3 [7] [[[9, 9, 1, 2], [9, 9, 3, 4]]] [[1]]
      (by decide) (by decide) (by decide) (by decide) (by decide) (by decide)⟩

lemma length_foldPass (b : List Nat) (len : Nat) :
    (foldPass b len).length = b.length := by
  simp [foldPass]

lemma length_foldRefOnce (b : List Nat) :
    (foldRefOnce b).length = b.length / 2 := by
  simp only [foldRefOnce, List.length_zipWith, List.length_take, List.length_drop]
  omega

lemma length_foldRef (k : Nat) (b : List Nat) :
    (foldRef k b).length = b.length / 2 ^ k := by
  induction k generalizing b with
  | zero => simp [foldRef]
  | succ k ih =>
    rw [foldRef, Function.iterate_succ_apply, ← foldRef, ih, length_foldRefOnce,
      Nat.div_div_eq_div_mul, pow_succ']

lemma foldPass_take (b : List Nat) (len : Nat) (h : len ≤ b.length) :
    (foldPass b len).take (len / 2) = foldRefOnce (b.take len) := by
  have hhalf : len / 2 + len / 2 ≤ len := by omega
  have hlen1 : ((foldPass b len).take (len / 2)).length = len / 2 := by
    simp only [List.length_take, length_foldPass]
    omega
  have hlen2 : (foldRefOnce (b.take len)).length = len / 2 := by
    rw [length_foldRefOnce, List.length_take]
    omega
  apply List.ext_getElem (hlen1.trans hlen2.symm)
  intro i hi1 hi2
  have hi : i < len / 2 := hlen1 ▸ hi1
  have hib : i < b.length := by omega
  have hib2 : len / 2 + i < b.length := by omega
  have htlen : (b.take len).length = len := by simp [List.length_take]; omega
  simp only [List.getElem_take, foldPass, List.getElem_map, List.getElem_range,
    if_pos hi, foldRefOnce, List.getElem_zipWith, htlen, List.getElem_drop]
  rw [List.getD_eq_getElem b 0 hib, List.getD_eq_getElem b 0 hib2]

lemma foldLoop_spec (k : Nat) :
    ∀ (b : List Nat) (len : Nat), len ≤ b.length →
      (foldLoop k b len).2 = len / 2 ^ k ∧
      (foldLoop k b len).1.length = b.length ∧
      (foldLoop k b len).1.take (len / 2 ^ k) = foldRef k (b.take len) := by
  induction k with
  | zero =>
    intro b len h
    simp [foldLoop, foldRef]
  | succ k ih =>
    intro b len h
    have h' : len / 2 ≤ (foldPass b len).length := by
      rw [length_foldPass]; omega
    obtain ⟨ih1, ih2, ih3⟩ := ih (foldPass b len) (len / 2) h'
    have hdiv : len / 2 / 2 ^ k = len / 2 ^ (k + 1) := by
      rw [Nat.div_div_eq_div_mul, pow_succ']
    refine ⟨?_, ?_, ?_⟩
    · show (foldLoop k (foldPass b len) (len / 2)).2 = _
      rw [ih1, hdiv]
    · show (foldLoop k (foldPass b len) (len / 2)).1.length = _
      rw [ih2, length_foldPass]
    · show (foldLoop k (foldPass b len) (len / 2)).1.take (len / 2 ^ (k + 1)) = _
      rw [← hdiv, ih3, foldPass_take b len h, foldRef, foldRef,
        Function.iterate_succ_apply]

/-- `fold_bytes` agrees with the reference algorithm whenever it succeeds:
for `folds = 0` it returns the data unchanged, and for a length divisible by
`2 ^ folds` it returns the iterated reference fold. -/
lemma fold_bytes_eq_foldRef (data : List Nat) (folds : Nat)
    (h : 2 ^ folds ∣ data.length) :
    fold_bytes data folds = .ok (foldRef folds data) := by
  by_cases h0 : folds = 0
  · subst h0
    simp [fold_bytes, foldRef]
  · have hmask : data.length &&& ((1 <<< folds) - 1) = 0 := by
      rw [Nat.one_shiftLeft, Nat.and_pow_two_sub_one_eq_mod]
      obtain ⟨c, hc⟩ := h
      simp [hc, Nat.mul_mod_right]
    obtain ⟨hl1, _, hl3⟩ := foldLoop_spec folds data data.length le_rfl
    rw [fold_bytes, if_neg h0, if_neg (by simp [hmask])]
    show Except.ok ((foldLoop folds data data.length).1.take
      (foldLoop folds data data.length).2) = _
    rw [hl1, hl3, List.take_length]

lemma fold_bytes_error_iff (data : List Nat) (folds : Nat) (h1 : 1 ≤ folds) :
    (∃ e, fold_bytes data folds = .error e) ↔ ¬ (2 ^ folds ∣ data.length) := by
  have hne : ¬ folds = 0 := by omega
  rw [fold_bytes, if_neg hne]
  constructor
  · rintro ⟨e, he⟩
    intro hdvd
    rw [if_neg] at he
    · exact Except.noConfusion he
    · obtain ⟨c, hc⟩ := hdvd
      simp [hc, Nat.one_shiftLeft, Nat.and_pow_two_sub_one_eq_mod,
        Nat.mul_mod_right]
  · intro hdvd
    rw [if_pos]
    · exact ⟨_, rfl⟩
    · simp only [Nat.one_shiftLeft, Nat.and_pow_two_sub_one_eq_mod, ne_eq,
        bne_iff_ne]
      exact fun hmod => hdvd (Nat.dvd_of_mod_eq_zero hmod)

/-- C3: `fold_bytes(data, 0)` returns an unmodified copy; for `folds ≥ 1` it
fails with `ValueError` exactly when the length is not a multiple of
`2 ^ folds`, and otherwise equals the reference algorithm (`folds` iterations
of XOR-ing the second half into the first half and truncating), whose result
has length `len(data) >> folds`. -/
theorem fold_bytes_matches_reference (data : List Nat) (folds : Nat) :
    fold_bytes data 0 = .ok data ∧
    (1 ≤ folds →
      (((∃ e, fold_bytes data folds = .error e) ↔ ¬ (2 ^ folds ∣ data.length)) ∧
        (2 ^ folds ∣ data.length →
          fold_bytes data folds = .ok (foldRef folds data) ∧
          (foldRef folds data).length = data.length >>> folds))) := by
  refine ⟨by simp [fold_bytes], fun h1 => ⟨fold_bytes_error_iff data folds h1, ?_⟩⟩
  intro hdvd
  exact ⟨fold_bytes_eq_foldRef data folds hdvd,
    by rw [length_foldRef, Nat.shiftRight_eq_div_pow]⟩

/-- Witness for C3 at `data = [1, 2, 3, 4]`, `folds = 2`. -/
theorem fold_bytes_matches_reference_witness :
    fold_bytes [1, 2, 3, 4] 0 = .ok [1, 2, 3, 4] ∧
    (1 ≤ 2 ∧ (2 ^ 2 ∣ ([1, 2, 3, 4] : List Nat).length)) ∧
    fold_bytes [1, 2, 3, 4] 2 = .ok (foldRef 2 [1, 2, 3, 4]) ∧
    (foldRef 2 ([1, 2, 3, 4] : List Nat)).length = ([1, 2, 3, 4] : List Nat).length >>> 2 :=
  ⟨(fold_bytes_matches_reference [1, 2, 3, 4] 2).1, ⟨by decide, by decide⟩,
    (((fold_bytes_matches_reference [1, 2, 3, 4] 2).2 (by decide)).2 (by decide)).1,
    (((fold_bytes_matches_reference [1, 2, 3, 4] 2).2 (by decide)).2 (by decide)).2⟩

lemma rawSizes_zero (folds : Nat) : rawSizes folds 0 = [] := by
  unfold rawSizes
  simp

lemma rawSizes_pos (folds remain : Nat) (h0 : remain ≠ 0)
    (hc : 65536 >>> folds ≠ 0) :
    rawSizes folds remain
      = (min remain (65536 >>> folds) <<< folds)
        :: rawSizes folds (remain - min remain (65536 >>> folds)) := by
  conv_lhs => rw [rawSizes]
  rw [dif_neg (by push_neg; exact ⟨h0, hc⟩)]


lemma chunkStream_map_length (s : Nat → Nat) :
    ∀ (sizes : List Nat) (pos : Nat),
      (chunkStream s pos sizes).map List.length = sizes
  | [], _ => rfl
  | sz :: sizes, pos => by
    simp [chunkStream, chunkStream_map_length s sizes]

lemma shiftLeft_le_of_le_shiftRight {folds m : Nat} (hm : m ≤ 65536 >>> folds) :
    m <<< folds ≤ 65536 := by
  rw [Nat.shiftLeft_eq]
  rw [Nat.shiftRight_eq_div_pow] at hm
  calc m * 2 ^ folds ≤ 65536 / 2 ^ folds * 2 ^ folds :=
        Nat.mul_le_mul_right _ hm
    _ ≤ 65536 := Nat.div_mul_le_self _ _

lemma rawSizes_le (folds : Nat) (remain : Nat) :
    ∀ sz ∈ rawSizes folds remain, sz ≤ 65536 := by
  induction remain using Nat.strong_induction_on with
  | _ remain ih =>
    by_cases h : remain = 0 ∨ 65536 >>> folds = 0
    · intro sz hsz
      unfold rawSizes at hsz
      rw [dif_pos h] at hsz
      simp at hsz
    · push_neg at h
      intro sz hsz
      rw [rawSizes_pos folds remain h.1 h.2] at hsz
      rcases List.mem_cons.mp hsz with h1 | h2
      · exact h1 ▸ shiftLeft_le_of_le_shiftRight (min_le_right _ _)
      · have hlt : remain - min remain (65536 >>> folds) < remain :=
          Nat.sub_lt (Nat.pos_of_ne_zero h.1)
            (le_min (Nat.pos_of_ne_zero h.1) (Nat.pos_of_ne_zero h.2))
        exact ih _ hlt _ h2

/-- Full characterization of the folded read loop in the legal fold range:
with fuel at least `remain` the loop succeeds, reads exactly the chunks of
`rawSizes` from successive stream positions, outputs the concatenation of the
per-chunk folds, and the output length is exactly `remain`. -/
lemma readFoldedGo_spec (s : Nat → Nat) (folds : Nat)
    (h2 : 1 ≤ folds) (h3 : folds ≤ 4) :
    ∀ (fuel pos remain : Nat), remain ≤ fuel →
      readFoldedGo s folds fuel pos remain =
        some ((chunkStream s pos (rawSizes folds remain)).flatMap (foldRef folds),
          chunkStream s pos (rawSizes folds remain),
          pos + (rawSizes folds remain).sum) ∧
      ((chunkStream s pos (rawSizes folds remain)).flatMap (foldRef folds)).length
        = remain := by
  have hc : 65536 >>> folds ≠ 0 := by
    interval_cases folds <;> decide
  have hcpos : 1 ≤ 65536 >>> folds := Nat.one_le_iff_ne_zero.mpr hc
  intro fuel
  induction fuel with
  | zero =>
    intro pos remain hr
    have h0 : remain = 0 := Nat.le_zero.mp hr
    subst h0
    rw [rawSizes_zero]
    simp [readFoldedGo, chunkStream]
  | succ fuel ih =>
    intro pos remain hr
    by_cases h0 : remain = 0
    · subst h0
      rw [rawSizes_zero]
      simp [readFoldedGo, chunkStream]
    · have hm1 : 1 ≤ min remain (65536 >>> folds) :=
        le_min (Nat.one_le_iff_ne_zero.mpr h0) hcpos
      have hmax : max 1 (min remain (65536 >>> folds)) = min remain (65536 >>> folds) :=
        Nat.max_eq_right hm1
      set m := min remain (65536 >>> folds) with hmdef
      have hraw1 : 1 ≤ m <<< folds := by
        rw [Nat.shiftLeft_eq]
        exact Nat.one_le_iff_ne_zero.mpr (Nat.mul_ne_zero (by omega)
          (Nat.pos_iff_ne_zero.mp (Nat.pos_pow_of_pos _ (by norm_num))))
      have hraw2 : m <<< folds ≤ 65536 :=
        shiftLeft_le_of_le_shiftRight (min_le_right _ _)
      have hre : read_entropy s pos (m <<< folds) =
          .ok ((List.range (m <<< folds)).map fun i => s (pos + i),
            pos + m <<< folds) := by
        rw [read_entropy, if_neg (by omega)]
      have hdvd : 2 ^ folds ∣ ((List.range (m <<< folds)).map
          fun i => s (pos + i)).length := by
        simp only [List.length_map, List.length_range, Nat.shiftLeft_eq]
        exact dvd_mul_left _ _
      have hfold := fold_bytes_eq_foldRef _ folds hdvd
      have hfoldlen : (foldRef folds ((List.range (m <<< folds)).map
          fun i => s (pos + i))).length = m := by
        rw [length_foldRef]
        simp only [List.length_map, List.length_range, Nat.shiftLeft_eq]
        exact Nat.mul_div_cancel m (Nat.pos_pow_of_pos _ (by norm_num))
      have hrem' : remain - m ≤ fuel := by omega
      obtain ⟨ih1, ih2⟩ := ih (pos + m <<< folds) (remain - m) hrem'
      have hsizes : rawSizes folds remain =
          (m <<< folds) :: rawSizes folds (remain - m) :=
        rawSizes_pos folds remain h0 hc
      constructor
      · rw [hsizes]
        simp only [readFoldedGo, if_neg h0, hmax, hre, hfold, hfoldlen, ih1,
          chunkStream, List.flatMap_cons, List.sum_cons, Nat.add_assoc]
      · rw [hsizes]
        simp only [chunkStream, List.flatMap_cons, List.length_append,
          hfoldlen, ih2]
        omega

lemma rawSizes_dvd (folds : Nat) (remain : Nat) :
    ∀ sz ∈ rawSizes folds remain, 2 ^ folds ∣ sz := by
  induction remain using Nat.strong_induction_on with
  | _ remain ih =>
    by_cases h : remain = 0 ∨ 65536 >>> folds = 0
    · intro sz hsz
      unfold rawSizes at hsz
      rw [dif_pos h] at hsz
      simp at hsz
    · push_neg at h
      intro sz hsz
      rw [rawSizes_pos folds remain h.1 h.2] at hsz
      rcases List.mem_cons.mp hsz with h1 | h2
      · rw [h1, Nat.shiftLeft_eq]
        exact dvd_mul_left _ _
      · have hlt : remain - min remain (65536 >>> folds) < remain :=
          Nat.sub_lt (Nat.pos_of_ne_zero h.1)
            (le_min (Nat.pos_of_ne_zero h.1) (Nat.pos_of_ne_zero h.2))
        exact ih _ hlt _ h2

/-- C2: for every `out_len ≥ 1` and `folds ∈ [1, 4]`, the folded read
succeeds, every raw transfer it issues has length
`min(remaining, 65536 >> folds) << folds` (the `rawSizes` schedule), hence no
raw transfer exceeds 65536 bytes, and the accumulated output has length
exactly `out_len`. -/
theorem read_entropy_folded_bounded_transfers (out_len folds : Nat)
    (s : Nat → Nat) (h1 : 1 ≤ out_len) (h2 : 1 ≤ folds) (h3 : folds ≤ 4) :
    ∃ out chunks pos,
      read_entropy_folded s out_len out_len folds = some (out, chunks, pos) ∧
      out.length = out_len ∧
      chunks.map List.length = rawSizes folds out_len ∧
      ∀ c ∈ chunks, c.length ≤ 65536 := by
  obtain ⟨hgo, hlen⟩ := readFoldedGo_spec s folds h2 h3 out_len 0 out_len le_rfl
  refine ⟨(chunkStream s 0 (rawSizes folds out_len)).flatMap (foldRef folds),
    chunkStream s 0 (rawSizes folds out_len), 0 + (rawSizes folds out_len).sum,
    ?_, hlen, chunkStream_map_length s _ 0, ?_⟩
  · rw [read_entropy_folded, if_neg (by omega)]
    exact hgo
  · intro c hcmem
    refine rawSizes_le folds out_len _ ?_
    rw [← chunkStream_map_length s (rawSizes folds out_len) 0]
    exact List.mem_map_of_mem List.length hcmem

/-- Witness for C2 at `out_len = 1`, `folds = 1`, the all-zero stream. -/
theorem read_entropy_folded_bounded_transfers_witness :
    (1 ≤ 1 ∧ 1 ≤ 1 ∧ 1 ≤ 4) ∧
    ∃ out chunks pos,
      read_entropy_folded (fun _ => 0) 1 1 1 = some (out, chunks, pos) ∧
      out.length = 1 ∧
      chunks.map List.length = rawSizes 1 1 ∧
      ∀ c ∈ chunks, c.length ≤ 65536 :=
  ⟨⟨le_rfl, le_rfl, by norm_num⟩,
    read_entropy_folded_bounded_transfers 1 1 (fun _ => 0) le_rfl le_rfl
      (by norm_num)⟩

/-- C7 (amended): the output of a chunked folded read is the concatenation of
the per-chunk folds of the raw chunks actually read (each raw chunk folded
end-to-end on its own), not the fold of the concatenated raw buffer. -/
theorem read_entropy_folded_concat_of_chunk_folds (out_len folds : Nat)
    (s : Nat → Nat) (h1 : 1 ≤ out_len) (h2 : 1 ≤ folds) (h3 : folds ≤ 4) :
    ∃ chunks pos,
      read_entropy_folded s out_len out_len folds
        = some (chunks.flatMap (foldRef folds), chunks, pos) ∧
      chunks = chunkStream s 0 (rawSizes folds out_len) ∧
      ∀ c ∈ chunks, fold_bytes c folds = .ok (foldRef folds c) := by
  obtain ⟨hgo, -⟩ := readFoldedGo_spec s folds h2 h3 out_len 0 out_len le_rfl
  refine ⟨chunkStream s 0 (rawSizes folds out_len),
    0 + (rawSizes folds out_len).sum, ?_, rfl, ?_⟩
  · rw [read_entropy_folded, if_neg (by omega)]
    exact hgo
  · intro c hcmem
    refine fold_bytes_eq_foldRef c folds (rawSizes_dvd folds out_len _ ?_)
    rw [← chunkStream_map_length s (rawSizes folds out_len) 0]
    exact List.mem_map_of_mem List.length hcmem

/-- Witness for C7 (amended) at `out_len = 1`, `folds = 1`, all-zero stream. -/
theorem read_entropy_folded_concat_of_chunk_folds_witness :
    (1 ≤ 1 ∧ 1 ≤ 1 ∧ 1 ≤ 4) ∧
    ∃ chunks pos,
      read_entropy_folded (fun _ => 0) 1 1 1
        = some (chunks.flatMap (foldRef 1), chunks, pos) ∧
      chunks = chunkStream (fun _ => 0) 0 (rawSizes 1 1) ∧
      ∀ c ∈ chunks, fold_bytes c 1 = .ok (foldRef 1 c) :=
  ⟨⟨le_rfl, le_rfl, by norm_num⟩,
    read_entropy_folded_concat_of_chunk_folds 1 1 (fun _ => 0) le_rfl le_rfl
      (by norm_num)⟩

lemma getD_range_map (f : Nat → Nat) (n i : Nat) (h : i < n) :
    ((List.range n).map f).getD i 0 = f i := by
  rw [List.getD_eq_getElem _ _ (by simpa using h)]
  simp

lemma foldRefOnce_getD (b : List Nat) (i : Nat) (h : i < b.length / 2) :
    (foldRefOnce b).getD i 0
      = b.getD i 0 ^^^ b.getD (b.length / 2 + i) 0 := by
  have hl : i < (foldRefOnce b).length := by rw [length_foldRefOnce]; omega
  have hib : i < b.length := by omega
  have hib2 : b.length / 2 + i < b.length := by omega
  rw [List.getD_eq_getElem _ _ hl, List.getD_eq_getElem _ _ hib,
    List.getD_eq_getElem _ _ hib2]
  simp only [foldRefOnce, List.getElem_zipWith, List.getElem_take,
    List.getElem_drop]

/-- C7 counterexample: for the chunked folded read with `out_len = 32769`,
`folds = 1` over the stream with a single 1 at offset 32768, the output
(concatenation of per-chunk folds) differs from folding the concatenation of
all raw chunks once, end-to-end: the former starts with
`raw[0] xor raw[32768] = 1`, the latter with `raw[0] xor raw[32769] = 0`. -/
theorem chunked_fold_differs_from_whole_fold :
    ∃ out chunks pos,
      read_entropy_folded deltaStream 32769 32769 1 = some (out, chunks, pos) ∧
      fold_bytes chunks.flatten 1 ≠ Except.ok out := by
  have e1 : (65536 : Nat) >>> 1 = 32768 := by decide
  have hsz : rawSizes 1 32769 = [65536, 2] := by
    rw [rawSizes_pos 1 32769 (by decide) (by decide), e1,
      show min (32769 : Nat) 32768 = 32768 by decide,
      show (32768 : Nat) <<< 1 = 65536 by decide,
      show (32769 : Nat) - 32768 = 1 by decide,
      rawSizes_pos 1 1 (by decide) (by decide), e1,
      show min (1 : Nat) 32768 = 1 by decide,
      show (1 : Nat) <<< 1 = 2 by decide,
      show (1 : Nat) - 1 = 0 by decide,
      rawSizes_zero]
  obtain ⟨hgo, -⟩ :=
    readFoldedGo_spec deltaStream 1 le_rfl (by norm_num) 32769 0 32769 le_rfl
  rw [hsz] at hgo
  refine ⟨(chunkStream deltaStream 0 [65536, 2]).flatMap (foldRef 1),
    chunkStream deltaStream 0 [65536, 2], 0 + ([65536, 2] : List Nat).sum,
    ?_, ?_⟩
  · rw [read_entropy_folded, if_neg (by norm_num)]
    exact hgo
  · simp only [chunkStream]
    set c1 : List Nat := (List.range 65536).map (fun i => deltaStream (0 + i))
      with hc1def
    set c2 : List Nat := (List.range 2).map (fun i => deltaStream (65536 + i))
      with hc2def
    have hc1len : c1.length = 65536 := by rw [hc1def]; simp
    have hc2len : c2.length = 2 := by rw [hc2def]; simp
    simp only [List.flatten_cons, List.flatten_nil, List.flatMap_cons,
      List.flatMap_nil, List.append_nil]
    rw [fold_bytes_eq_foldRef (c1 ++ c2) 1
      (by rw [List.length_append, hc1len, hc2len]; exact ⟨32769, by norm_num⟩)]
    intro hEq
    have hAB : foldRef 1 (c1 ++ c2) = foldRef 1 c1 ++ foldRef 1 c2 :=
      Except.ok.inj hEq
    have h0 := congrArg (fun l => l.getD 0 0) hAB
    simp only [foldRef, Function.iterate_one] at h0
    have hlen12 : (c1 ++ c2).length = 65538 := by
      rw [List.length_append, hc1len, hc2len]
    rw [foldRefOnce_getD _ 0 (by rw [hlen12]; norm_num), hlen12,
      show (65538 : Nat) / 2 + 0 = 32769 by norm_num] at h0
    rw [List.getD_append c1 c2 0 0 (by rw [hc1len]; norm_num),
      List.getD_append c1 c2 0 32769 (by rw [hc1len]; norm_num),
      List.getD_append (foldRefOnce c1) (foldRefOnce c2) 0 0
        (by rw [length_foldRefOnce, hc1len]; norm_num)] at h0
    rw [foldRefOnce_getD c1 0 (by rw [hc1len]; norm_num), hc1len,
      show (65536 : Nat) / 2 + 0 = 32768 by norm_num] at h0
    rw [hc1def] at h0
    rw [getD_range_map _ _ 0 (by norm_num),
      getD_range_map _ _ 32769 (by norm_num),
      getD_range_map _ _ 32768 (by norm_num)] at h0
    norm_num [deltaStream] at h0

lemma scanPair_iff (cmd : Nat) : ∀ d : List Nat,
    (scanPair cmd d = true ↔
      ∃ j, j + 1 < d.length ∧ d.getD j 0 = 0xFA ∧ d.getD (j + 1) 0 = cmd)
  | [] => by
    simp [scanPair]
  | [a] => by
    simp [scanPair]
  | a :: b :: rest => by
    simp only [scanPair, Bool.or_eq_true, Bool.and_eq_true, beq_iff_eq]
    rw [scanPair_iff cmd (b :: rest)]
    constructor
    · rintro (⟨h1, h2⟩ | ⟨j, hj, h3, h4⟩)
      · exact ⟨0, by simp, by simpa using h1, by simpa using h2⟩
      · refine ⟨j + 1, ?_, ?_, ?_⟩
        · simp only [List.length_cons] at hj ⊢
          omega
        · simpa [List.getD_cons_succ] using h3
        · simpa [List.getD_cons_succ] using h4
    · rintro ⟨j, hj, h3, h4⟩
      match j with
      | 0 =>
        exact Or.inl ⟨by simpa using h3, by simpa using h4⟩
      | j + 1 =>
        refine Or.inr ⟨j, ?_, ?_, ?_⟩
        · simp only [List.length_cons] at hj ⊢
          omega
        · simpa [List.getD_cons_succ] using h3
        · simpa [List.getD_cons_succ] using h4

lemma check_sync_iff (cmd : Nat) (reads : Nat → Option (List Nat)) :
    check_sync cmd reads = true ↔
      ∃ i < 10, ∃ d, reads i = some d ∧ scanPair cmd d = true := by
  rw [check_sync, List.any_eq_true]
  constructor
  · rintro ⟨i, hi, h⟩
    cases hr : reads i with
    | none =>
      rw [hr] at h
      exact absurd h (by simp)
    | some d =>
      rw [hr] at h
      exact ⟨i, by simpa using hi, d, hr, h⟩
  · rintro ⟨i, hi, d, hd, h⟩
    refine ⟨i, by simpa using hi, ?_⟩
    rw [hd]
    exact h

lemma init_mpsse_iff (env : Nat → Nat → Nat → Option (List Nat)) :
    init_mpsse env = true ↔
      (check_sync 0xAA (env 0 0xAA) = true ∧ check_sync 0xAB (env 0 0xAB) = true) ∨
      (check_sync 0xAA (env 1 0xAA) = true ∧ check_sync 0xAB (env 1 0xAB) = true) := by
  rw [init_mpsse, show List.range 2 = [0, 1] from rfl]
  simp [Bool.and_eq_true]

/-- C5: MPSSE bring-up attempts the sequence at most 2 times and succeeds iff
some attempt passes both sync checks (the result depends only on the first
two attempts); consequently `BitBabbler.open` succeeds when the handshake
fails on the first attempt but passes on the second, and fails with the
initialization error when both attempts fail. -/
theorem init_mpsse_two_attempts (env env' : Nat → Nat → Nat → Option (List Nat)) :
    (init_mpsse env = true ↔
      ∃ a < 2, check_sync 0xAA (env a 0xAA) = true ∧
        check_sync 0xAB (env a 0xAB) = true) ∧
    ((∀ a < 2, ∀ c, env a c = env' a c) → init_mpsse env = init_mpsse env') ∧
    (¬ (check_sync 0xAA (env 0 0xAA) = true ∧ check_sync 0xAB (env 0 0xAB) = true) →
      check_sync 0xAA (env 1 0xAA) = true →
      check_sync 0xAB (env 1 0xAB) = true →
      bb_open true env = .ok ()) ∧
    ((∀ a < 2, ¬ (check_sync 0xAA (env a 0xAA) = true ∧
        check_sync 0xAB (env a 0xAB) = true)) →
      bb_open true env = .error "Failed to initialize BitBabbler (MPSSE sync)") := by
  refine ⟨?_, ?_, ?_, ?_⟩
  · rw [init_mpsse_iff]
    constructor
    · rintro (⟨h1, h2⟩ | ⟨h1, h2⟩)
      · exact ⟨0, by norm_num, h1, h2⟩
      · exact ⟨1, by norm_num, h1, h2⟩
    · rintro ⟨a, ha, h1, h2⟩
      interval_cases a
      · exact Or.inl ⟨h1, h2⟩
      · exact Or.inr ⟨h1, h2⟩
  · intro hagree
    rw [init_mpsse, init_mpsse, show List.range 2 = [0, 1] from rfl]
    simp only [List.any_cons, List.any_nil]
    rw [hagree 0 (by norm_num) 0xAA, hagree 0 (by norm_num) 0xAB,
      hagree 1 (by norm_num) 0xAA, hagree 1 (by norm_num) 0xAB]
  · intro h0 h1a h1b
    have hinit : init_mpsse env = true := (init_mpsse_iff env).mpr (Or.inr ⟨h1a, h1b⟩)
    simp [bb_open, bb_init, hinit]
  · intro hall
    have hinit : ¬ init_mpsse env = true := by
      rw [init_mpsse_iff]
      rintro (h | h)
      · exact hall 0 (by norm_num) h
      · exact hall 1 (by norm_num) h
    simp [bb_open, bb_init, hinit]

/-- Witness for C5: an oracle whose reads echo nothing on attempt 0 and echo
the expected pair on attempt 1 yields a successful open; an oracle that never
echoes yields the initialization error. -/
theorem init_mpsse_two_attempts_witness :
    bb_open true (fun a cmd _ => if a = 1 then some [0xFA, cmd] else some [])
      = .ok () ∧
    bb_open true (fun _ _ _ => some [])
      = .error "Failed to initialize BitBabbler (MPSSE sync)" :=
  ⟨(init_mpsse_two_attempts (fun a cmd _ => if a = 1 then some [0xFA, cmd] else some [])
      (fun a cmd _ => if a = 1 then some [0xFA, cmd] else some [])).2.2.1
      (by decide) (by decide) (by decide),
    (init_mpsse_two_attempts (fun _ _ _ => some [])
      (fun _ _ _ => some [])).2.2.2 (by decide)⟩

/-- C6 (amended): the first sync check writes `0xAA` followed by the
send-immediate byte and succeeds exactly when some polled read contains the
consecutive bytes `0xFA, 0xAA`; the second check writes the bad-command byte
`0xAB` (not `0xBB`) and succeeds exactly on seeing `0xFA, 0xAB`; the device
is declared synchronized only when both checks of an attempt succeed. -/
theorem sync_handshake_writes_and_scans
    (env : Nat → Nat → Nat → Option (List Nat)) (cmd : Nat)
    (reads : Nat → Option (List Nat)) (a : Nat) :
    check_sync_write 0xAA = [0xAA, MPSSE_SEND_IMMEDIATE] ∧
    check_sync_write 0xAB = [0xAB, MPSSE_SEND_IMMEDIATE] ∧
    (check_sync cmd reads = true ↔
      ∃ i < 10, ∃ d, reads i = some d ∧
        ∃ j, j + 1 < d.length ∧ d.getD j 0 = 0xFA ∧ d.getD (j + 1) 0 = cmd) ∧
    (check_sync 0xAA (env a 0xAA) = true →
      attemptSyncWrites a env
        = [[0xAA, MPSSE_SEND_IMMEDIATE], [0xAB, MPSSE_SEND_IMMEDIATE]]) ∧
    (init_mpsse env = true ↔ ∃ a' < 2,
      check_sync 0xAA (env a' 0xAA) = true ∧
        check_sync 0xAB (env a' 0xAB) = true) := by
  refine ⟨rfl, rfl, ?_, ?_, ?_⟩
  · rw [check_sync_iff]
    simp only [scanPair_iff]
  · intro h
    rw [attemptSyncWrites, if_pos h]
    rfl
  · rw [init_mpsse_iff]
    constructor
    · rintro (⟨h1, h2⟩ | ⟨h1, h2⟩)
      · exact ⟨0, by norm_num, h1, h2⟩
      · exact ⟨1, by norm_num, h1, h2⟩
    · rintro ⟨a', ha, h1, h2⟩
      interval_cases a'
      · exact Or.inl ⟨h1, h2⟩
      · exact Or.inr ⟨h1, h2⟩

/-- Witness for C6 (amended), instantiated at the always-echoing oracle. -/
theorem sync_handshake_writes_and_scans_witness :
    check_sync_write 0xAA = [0xAA, MPSSE_SEND_IMMEDIATE] ∧
    (check_sync 0xAA (allSyncEnv 0 0xAA) = true →
      attemptSyncWrites 0 allSyncEnv
        = [[0xAA, MPSSE_SEND_IMMEDIATE], [0xAB, MPSSE_SEND_IMMEDIATE]]) ∧
    attemptSyncWrites 0 allSyncEnv
      = [[0xAA, MPSSE_SEND_IMMEDIATE], [0xAB, MPSSE_SEND_IMMEDIATE]] :=
  ⟨(sync_handshake_writes_and_scans allSyncEnv 0xAA (allSyncEnv 0 0xAA) 0).1,
    (sync_handshake_writes_and_scans allSyncEnv 0xAA (allSyncEnv 0 0xAA) 0).2.2.2.1,
    (sync_handshake_writes_and_scans allSyncEnv 0xAA (allSyncEnv 0 0xAA) 0).2.2.2.1
      (by decide)⟩

/-- C6 counterexample: in a successful handshake the second sync check's
write buffer is `[0xAB, 0x87]` — its bad-command byte is `0xAB`, not the
`0xBB` stated by the claim. -/
theorem second_sync_check_writes_0xAB_not_0xBB :
    initSyncWrites allSyncEnv
      = [[0xAA, MPSSE_SEND_IMMEDIATE], [0xAB, MPSSE_SEND_IMMEDIATE]] ∧
    ((initSyncWrites allSyncEnv).getD 1 []).getD 0 0 = 0xAB ∧
    ((initSyncWrites allSyncEnv).getD 1 []).getD 0 0 ≠ 0xBB := by
  refine ⟨?_, ?_, ?_⟩ <;> decide

lemma nat_requantize_bounds (n : Nat) (h1 : 459 ≤ n) (h2 : n ≤ 29999999) :
    459 ≤ 30000000 / (30000000 / n) ∧ 30000000 / (30000000 / n) ≤ 30000000 := by
  have hq1 : 1 ≤ 30000000 / n := (Nat.one_le_div_iff (by omega)).mpr (by omega)
  have hq2 : 30000000 / n ≤ 65359 := by
    calc 30000000 / n ≤ 30000000 / 459 := Nat.div_le_div_left h1 (by norm_num)
      _ = 65359 := by norm_num
  refine ⟨?_, Nat.div_le_self _ _⟩
  calc (459 : Nat) = 30000000 / 65359 := by norm_num
    _ ≤ 30000000 / (30000000 / n) := Nat.div_le_div_left hq2 hq1

lemma real_bitrate_cases (b : Int) :
    ∃ n : Nat, real_bitrate b = ↑n ∧ 458 ≤ n ∧ n ≤ 30000000 := by
  rw [real_bitrate]
  split
  · exact ⟨30000000, by norm_num, by norm_num, le_rfl⟩
  · split
    · exact ⟨458, by norm_num, le_rfl, by norm_num⟩
    · rename_i hge hle
      push_neg at hge hle
      have hbnn : 0 ≤ b := by omega
      have hbn : b = ((b.toNat : Nat) : Int) := (Int.toNat_of_nonneg hbnn).symm
      have hn1 : 459 ≤ b.toNat := by omega
      have hn2 : b.toNat ≤ 29999999 := by omega
      refine ⟨30000000 / (30000000 / b.toNat), ?_,
        le_trans (by norm_num) (nat_requantize_bounds b.toNat hn1 hn2).1,
        (nat_requantize_bounds b.toNat hn1 hn2).2⟩
      rw [hbn, show (30000000 : Int) = ((30000000 : Nat) : Int) from by norm_num,
        ← Int.ofNat_fdiv, ← Int.ofNat_fdiv]
      simp

lemma encode16 (m : Nat) (h : m < 65536) :
    (m &&& 0xFF) + 256 * ((m >>> 8) &&& 0xFF) = m := by
  have h255 : (0xFF : Nat) = 2 ^ 8 - 1 := by norm_num
  rw [h255, Nat.and_pow_two_sub_one_eq_mod, Nat.and_pow_two_sub_one_eq_mod,
    Nat.shiftRight_eq_div_pow]
  have hlt : m / 2 ^ 8 < 2 ^ 8 := Nat.div_lt_of_lt_mul (by norm_num at h ⊢; omega)
  rw [Nat.mod_eq_of_lt hlt, show (2 : Nat) ^ 8 = 256 from by norm_num]
  exact Nat.mod_add_div m 256

/-- C10: whatever bitrate is requested (any integer, zero, or omitted), the
stored quantized bitrate lies in `[458, 30000000]`, hence the clock divisor
`30000000 // bitrate - 1` of `BitBabbler.init` lies in `[0, 65501]` and the
two little-endian command bytes reassemble it without truncation. -/
theorem stored_bitrate_and_divisor_in_range (bitrate : Option Int) :
    458 ≤ stored_bitrate bitrate ∧ stored_bitrate bitrate ≤ 30000000 ∧
    0 ≤ clk_div (stored_bitrate bitrate) ∧
    clk_div (stored_bitrate bitrate) ≤ 65501 ∧
    (clk_div_bytes (clk_div (stored_bitrate bitrate)).toNat).1 +
      256 * (clk_div_bytes (clk_div (stored_bitrate bitrate)).toNat).2
      = (clk_div (stored_bitrate bitrate)).toNat := by
  obtain ⟨n, heq, h1, h2⟩ :
      ∃ n : Nat, stored_bitrate bitrate = ↑n ∧ 458 ≤ n ∧ n ≤ 30000000 :=
    real_bitrate_cases _
  rw [heq]
  have hd : clk_div (n : Int) = ((30000000 / n : Nat) : Int) - 1 := by
    rw [clk_div, show (30000000 : Int) = ((30000000 : Nat) : Int) from by norm_num,
      ← Int.ofNat_fdiv]
  have hd1 : 1 ≤ 30000000 / n := (Nat.one_le_div_iff (by omega)).mpr h2
  have hd2 : 30000000 / n ≤ 65502 := by
    calc 30000000 / n ≤ 30000000 / 458 := Nat.div_le_div_left h1 (by norm_num)
      _ = 65502 := by norm_num
  have htn : (clk_div (n : Int)).toNat = 30000000 / n - 1 := by
    rw [hd]
    omega
  refine ⟨by exact_mod_cast h1, by exact_mod_cast h2, by rw [hd]; omega,
    by rw [hd]; omega, ?_⟩
  rw [htn]
  exact encode16 _ (by omega)

/-- C8 evidence (code bug): with the FT232H high-speed packet size 512 and
the default quantized bitrate 2500000, the code computes a default latency of
`int(1.6384) + 2 = 3` ms, while its own comment and the spec prescribe
`ceil(1.6384) + 2 = 4` ms. -/
theorem default_latency_floor_vs_ceil :
    stored_bitrate none = 2500000 ∧
    default_latency 512 2500000 = 3 ∧
    latency_claim_formula 512 2500000 = 4 ∧
    default_latency 512 2500000 ≠ latency_claim_formula 512 2500000 := by
  refine ⟨by decide, by decide, by decide, by decide⟩

/-- C9: a failed device read clears the module-level cache in the state
returned alongside the error; a subsequent `get_bytes` on a cleared cache
performs a fresh `open` attempt (the open counter advances) instead of
reusing a handle; `close` discards the cached handle and is idempotent. -/
theorem device_cache_invalidated_on_error (env env2 : CoreEnv)
    (s s2 : CoreState) (n folds n2 folds2 : Int) :
    (core_get_bytes env s n folds = (Except.error CoreErr.readFailed, s2) →
      s2.cached = none) ∧
    (s2.cached = none → 0 < n2 → 0 ≤ folds2 → folds2 ≤ 4 →
      (core_get_bytes env2 s2 n2 folds2).2.opens = s2.opens + 1) ∧
    (core_close s).cached = none ∧
    core_close (core_close s) = core_close s := by
  refine ⟨?_, ?_, rfl, rfl⟩
  · intro h
    rw [core_get_bytes] at h
    split at h
    · exact absurd (congrArg Prod.fst h) (by simp)
    · split at h
      · exact absurd (congrArg Prod.fst h) (by simp)
      · rcases hgd : get_device env s with ⟨dev, s3⟩
        rw [hgd] at h
        cases dev with
        | none => exact absurd (congrArg Prod.fst h) (by simp)
        | some d =>
          dsimp only at h
          split at h
          · exact absurd (congrArg Prod.fst h) (by simp)
          · have h2 := congrArg Prod.snd h
            dsimp only at h2
            rw [← h2]
  · intro hnone hn2 hf1 hf2
    rw [core_get_bytes, if_neg (by omega), if_neg (by omega)]
    rcases hgd : get_device env2 s2 with ⟨dev, s3⟩
    have hopens : s3.opens = s2.opens + 1 := by
      rw [get_device, hnone] at hgd
      rcases ho : env2.openResult s2.opens with _ | d
      all_goals
        rw [ho] at hgd
        simp only [Prod.mk.injEq] at hgd
        rw [← hgd.2]
    cases dev with
    | none => simpa using hopens
    | some d =>
      dsimp only
      split
      · simpa using hopens
      · simpa using hopens

/-- Witness for C9: with a transport whose reads always fail and a cached
handle `5`, `get_bytes 1 0` returns the read error with the cache cleared;
on that cleared state another call performs a fresh open attempt. -/
theorem device_cache_invalidated_on_error_witness :
    (⟨none, 0, 1⟩ : CoreState).cached = none ∧
    ((⟨none, 0, 1⟩ : CoreState).cached = none ∧
      (core_get_bytes ⟨fun _ => some 5, fun _ => false⟩ ⟨none, 0, 1⟩ 1 0).2.opens
        = (⟨none, 0, 1⟩ : CoreState).opens + 1) :=
  ⟨(device_cache_invalidated_on_error ⟨fun _ => some 5, fun _ => false⟩
      ⟨fun _ => some 5, fun _ => false⟩ ⟨some 5, 0, 0⟩ ⟨none, 0, 1⟩ 1 0 1 0).1
      (by rfl),
    rfl,
    (device_cache_invalidated_on_error ⟨fun _ => some 5, fun _ => false⟩
      ⟨fun _ => some 5, fun _ => false⟩ ⟨some 5, 0, 0⟩ ⟨none, 0, 1⟩ 1 0 1 0).2.1
      rfl (by norm_num) (by norm_num) (by norm_num)⟩

lemma ceilLog2Aux_eq_clog (fuel : Nat) :
    ∀ n, n ≤ fuel → ceilLog2Aux fuel n = Nat.clog 2 n := by
  induction fuel with
  | zero =>
    intro n hn
    rw [Nat.le_zero.mp hn, ceilLog2Aux]
    exact (Nat.clog_of_right_le_one (by norm_num) 2).symm
  | succ fuel ih =>
    intro n hn
    rw [ceilLog2Aux]
    by_cases h1 : n ≤ 1
    · rw [if_pos h1]
      exact (Nat.clog_of_right_le_one h1 2).symm
    · rw [if_neg h1, ih ((n + 1) / 2) (by omega)]
      conv_rhs => rw [Nat.clog_of_two_le (by norm_num) (by omega)]
      rw [show n + 2 - 1 = n + 1 from by omega]

/-- The embedded `ceilLog2` is the exact ceiling logarithm, i.e. the
`bits_needed` formula of the claim. -/
lemma ceilLog2_eq_clog (n : Nat) : ceilLog2 n = Nat.clog 2 n :=
  ceilLog2Aux_eq_clog n n le_rfl

lemma bb_random_int_some_eq (s : Nat → Nat) (fuel : Nat) (min_val mx : Int)
    (h : min_val < mx) :
    bb_random_int s fuel min_val (some mx) =
      match rejectLoop s (max 1 (ceilLog2 (mx - min_val).toNat))
          ((max 1 (ceilLog2 (mx - min_val).toNat) + 7) / 8)
          (mx - min_val).toNat fuel 0 with
        | none => none
        | some v => some (.ok (min_val + v)) := by
  rw [bb_random_int, if_neg (by omega)]

lemma rejectLoop_lt (s : Nat → Nat) (bits nB range : Nat) :
    ∀ (fuel pos w : Nat), rejectLoop s bits nB range fuel pos = some w →
      w < range := by
  intro fuel
  induction fuel with
  | zero =>
    intro pos w h
    exact Option.noConfusion h
  | succ fuel ih =>
    intro pos w h
    rw [rejectLoop] at h
    split at h
    · rename_i hlt
      exact Option.some.inj h ▸ hlt
    · exact ih _ _ h

lemma bytesToInt_foldl_lt (l : List Nat) :
    ∀ acc, (∀ x ∈ l, x < 256) →
      List.foldl (fun a b => a * 256 + b) acc l < (acc + 1) * 256 ^ l.length := by
  induction l with
  | nil =>
    intro acc _
    simpa using Nat.lt_succ_self acc
  | cons x xs ih =>
    intro acc hx
    have hstep := ih (acc * 256 + x) (fun y hy => hx y (by simp [hy]))
    calc List.foldl (fun a b => a * 256 + b) acc (x :: xs)
        = List.foldl (fun a b => a * 256 + b) (acc * 256 + x) xs := rfl
      _ < (acc * 256 + x + 1) * 256 ^ xs.length := hstep
      _ ≤ (acc + 1) * 256 ^ (x :: xs).length := by
          have hx256 : x + 1 ≤ 256 := hx x (by simp)
          have : acc * 256 + x + 1 ≤ (acc + 1) * 256 := by nlinarith
          calc (acc * 256 + x + 1) * 256 ^ xs.length
              ≤ ((acc + 1) * 256) * 256 ^ xs.length :=
                Nat.mul_le_mul_right _ this
            _ = (acc + 1) * 256 ^ (x :: xs).length := by
                rw [List.length_cons, pow_succ]
                ring

lemma bytesToInt_lt (l : List Nat) (h : ∀ x ∈ l, x < 256) :
    bytesToInt l < 256 ^ l.length := by
  simpa using bytesToInt_foldl_lt l 0 h

/-- C4 (amended): `random_int(min, max)` with `min ≥ max` fails with the
invalid-argument `ValueError` in both backends.  With `min < max`, the
BitBabbler backend performs rejection sampling per the stated formula (the
body of `bb_random_int`) and every value it returns lies in `[min, max)`;
the pseudo backend instead returns `min + secrets.randbelow(max - min)`,
which also lies in `[min, max)`.  With `max` omitted, the BitBabbler backend
returns the big-endian value of 4 fresh bytes (< 2^32 for byte-valued
streams); the pseudo backend returns `randbits(32)` only when `min = 0`,
returns `randbelow(min)` when `min > 0`, and fails with invalid-argument
when `min < 0`. -/
theorem random_int_range_and_validation (s : Nat → Nat) (fuel : Nat)
    (min_val mx v : Int) (o : SecretsOracle)
    (hrb : ∀ k, 0 < k → o.randbelow k < k) :
    (mx ≤ min_val → bb_random_int s fuel min_val (some mx)
      = some (.error "min_val must be less than max_val")) ∧
    (min_val < mx → bb_random_int s fuel min_val (some mx) = some (.ok v) →
      min_val ≤ v ∧ v < mx) ∧
    ((∀ i < 4, s i < 256) → ∃ w : Nat,
      bb_random_int s fuel min_val none = some (.ok (w : Int)) ∧ w < 2 ^ 32) ∧
    (mx ≤ min_val → pseudo_random_int o min_val (some mx)
      = .error "min_val must be less than max_val") ∧
    (min_val < mx →
      pseudo_random_int o min_val (some mx)
        = .ok (min_val + (o.randbelow (mx - min_val).toNat : Nat)) ∧
      min_val ≤ min_val + (o.randbelow (mx - min_val).toNat : Nat) ∧
      min_val + (o.randbelow (mx - min_val).toNat : Nat) < mx) ∧
    (min_val < 0 → pseudo_random_int o min_val none
      = .error "min_val must be non-negative when max_val is None") ∧
    (0 < min_val → pseudo_random_int o min_val none
      = .ok (o.randbelow min_val.toNat : Nat)) ∧
    (min_val = 0 → pseudo_random_int o min_val none
      = .ok (o.randbits32 : Nat)) := by
  refine ⟨?_, ?_, ?_, ?_, ?_, ?_, ?_, ?_⟩
  · intro hle
    rw [bb_random_int]
    rw [if_pos hle]
  · intro hlt h
    rw [bb_random_int_some_eq s fuel min_val mx hlt] at h
    rcases hl : rejectLoop s (max 1 (ceilLog2 (mx - min_val).toNat))
        ((max 1 (ceilLog2 (mx - min_val).toNat) + 7) / 8)
        (mx - min_val).toNat fuel 0 with _ | w
    · rw [hl] at h
      exact Option.noConfusion h
    · rw [hl] at h
      have hv : v = min_val + (w : Int) :=
        (Except.ok.inj (Option.some.inj h)).symm
      have hw : w < (mx - min_val).toNat := rejectLoop_lt s _ _ _ fuel 0 w hl
      have hw2 : (w : Int) < mx - min_val := by omega
      constructor
      · rw [hv]
        omega
      · rw [hv]
        omega
  · intro hbytes
    refine ⟨bytesToInt ((List.range 4).map s), rfl, ?_⟩
    have := bytesToInt_lt ((List.range 4).map s) (by
      intro x hx
      obtain ⟨i, hi, hxi⟩ := List.mem_map.mp hx
      exact hxi ▸ hbytes i (by simpa using hi))
    simpa using this
  · intro hle
    rw [pseudo_random_int]
    rw [if_pos hle]
  · intro hlt
    have hrange : 0 < (mx - min_val).toNat := by omega
    have hlt2 : o.randbelow (mx - min_val).toNat < (mx - min_val).toNat :=
      hrb _ hrange
    refine ⟨by rw [pseudo_random_int, if_neg (by omega)], by omega, by omega⟩
  · intro hneg
    rw [pseudo_random_int]
    rw [if_pos hneg]
  · intro hpos
    rw [pseudo_random_int, if_neg (by omega), if_pos hpos]
  · intro h0
    rw [pseudo_random_int, if_neg (by omega), if_neg (by omega)]

/-- Witness for C4 (amended): at `min = 0`, `max = 2` with the all-zero
stream the BitBabbler backend returns 0, which lies in `[0, 2)`; the trivial
`randbelow` oracle satisfies the `secrets` contract. -/
theorem random_int_range_and_validation_witness :
    ((0 : Int) < 2 ∧ (∀ k, 0 < k → (0 : Nat) < k)) ∧
    ((0 : Int) ≤ 0 ∧ (0 : Int) < 2) :=
  ⟨⟨by norm_num, fun _ hk => hk⟩,
    (random_int_range_and_validation (fun _ => 0) 1 0 2 0 ⟨fun _ => 0, 7⟩
      (fun _ hk => hk)).2.1 (by norm_num) (by rfl)⟩

/-- C4 counterexample: the pseudo backend's `random_int` with `max` omitted
and `min = -1` raises `ValueError` instead of returning a full-width
unsigned value sourced from 4 fresh bytes. -/
theorem pseudo_random_int_errors_with_max_omitted :
    pseudo_random_int ⟨fun _ => 0, 0⟩ (-1) none
      = Except.error "min_val must be non-negative when max_val is None" ∧
    ¬ ∃ w : Int, pseudo_random_int ⟨fun _ => 0, 0⟩ (-1) none = Except.ok w := by
  refine ⟨rfl, ?_⟩
  rintro ⟨w, hw⟩
  rw [show pseudo_random_int ⟨fun _ => 0, 0⟩ (-1) none
    = Except.error "min_val must be non-negative when max_val is None" from rfl] at hw
  exact Except.noConfusion hw

end RngTui
